import Mathlib

/-!
Shallow embedding of the title-forge-obsidian plugin core
(text sanitizer, frontmatter matcher, validators, Gemini client retry loop,
title/tag generators and the plugin-level apply steps), together with
theorems settling the frozen claims about it.

Modelling conventions:
* JavaScript strings are modelled as Lean `String`/`List Char`, with indices
  counted in Unicode scalar values (JS counts UTF-16 code units; the two agree
  on all characters below U+10000, and no claim here depends on astral-plane
  code-unit splitting).
* `String.prototype.toLowerCase` is modelled by `Char.toLower`, its ASCII
  fragment (the full Unicode simple case mapping is not in scope; no claim
  depends on non-ASCII casing).
* The regular expression `/^---\s*\n([\s\S]*?)\n---\s*\n/` and its variant
  that omits the trailing `\s*\n` are modelled by explicit backtracking
  matchers (`fmMatch`, `fmMatchNoTail`) that mirror the engine's greedy/lazy
  backtracking order.
-/

namespace TitleForge

/-- The JavaScript `\s` character class (ECMAScript WhiteSpace ∪ LineTerminator). -/
def jsWS (c : Char) : Bool :=
  c = ' ' || c = '\t' || c = '\n' || c = '\r' || c = '\x0b' || c = '\x0c' ||
  c = '\u00A0' || c = '\u1680' || ('\u2000' ≤ c && c ≤ '\u200A') ||
  c = '\u2028' || c = '\u2029' || c = '\u202F' || c = '\u205F' ||
  c = '\u3000' || c = '\uFEFF'

/-- `String.prototype.trim` on character lists: drop `\s` characters from both ends. -/
def trimL (l : List Char) : List Char :=
  ((l.dropWhile jsWS).reverse.dropWhile jsWS).reverse

/-- `String.prototype.trim`. -/
def jsTrim (s : String) : String := ⟨trimL s.data⟩

/-! ## The frontmatter regular expressions

`text-sanitizer.ts` (`removeFrontmatter`) and `main.ts` (`updateTagsInFrontmatter`)
use `/^---\s*\n([\s\S]*?)\n---\s*\n/`; `getTagsFromFrontmatter` uses the same
pattern without the trailing `\s*\n`.  The matchers below mirror the backtracking
regex engine: `matchWsStarNl cont cs` matches `\s*\n` at `cs` greedily
(longest `\s*` first, backtracking into `cont`), `matchLazy` matches
`([\s\S]*?)\n---\s*\n` lazily (shortest capture first), returning the capture
and the remainder after the whole match. -/

/-- Greedy `\s*` followed by a literal newline, continuing with `cont`;
backtracks from the longest `\s*` downward, exactly like the regex engine. -/
def matchWsStarNl {α : Type} (cont : List Char → Option α) : List Char → Option α
  | [] => none
  | c :: cs =>
    if jsWS c then
      (matchWsStarNl cont cs) <|> (if c = '\n' then cont cs else none)
    else none

/-- Does the list start with the closing delimiter `\n---`? -/
def startsClose : List Char → Bool
  | '\n' :: '-' :: '-' :: '-' :: _ => true
  | _ => false

/-- Does the close-delimiter sequence `\n---` occur anywhere in the list?
(Predicate used to state which documents contain a potential block close.) -/
def containsClose : List Char → Bool
  | [] => false
  | c :: cs => startsClose (c :: cs) || containsClose cs

/-- Match `\n---\s*\n` at the head; returns the remainder after the match. -/
def matchClose : List Char → Option (List Char)
  | '\n' :: '-' :: '-' :: '-' :: rest => matchWsStarNl some rest
  | _ => none

/-- Match `([\s\S]*?)\n---\s*\n` (lazy: shortest capture first); returns the
captured group and the remainder after the whole match. -/
def matchLazy : List Char → Option (List Char × List Char)
  | [] => (matchClose []).map (fun r => ([], r))
  | c :: cs =>
    match matchClose (c :: cs) with
    | some r => some ([], r)
    | none => (matchLazy cs).map (fun p => (c :: p.1, p.2))

/-- Full match of `/^---\s*\n([\s\S]*?)\n---\s*\n/`: returns the captured
group (the frontmatter body) and the remainder of the document after the match. -/
def fmMatch : List Char → Option (List Char × List Char)
  | '-' :: '-' :: '-' :: rest => matchWsStarNl matchLazy rest
  | _ => none

/-- Match `\n---` at the head (closing delimiter without trailing-newline
requirement); returns the remainder. -/
def matchCloseNoTail : List Char → Option (List Char)
  | '\n' :: '-' :: '-' :: '-' :: rest => some rest
  | _ => none

/-- Match `([\s\S]*?)\n---` lazily. -/
def matchLazyNoTail : List Char → Option (List Char × List Char)
  | [] => (matchCloseNoTail []).map (fun r => ([], r))
  | c :: cs =>
    match matchCloseNoTail (c :: cs) with
    | some r => some ([], r)
    | none => (matchLazyNoTail cs).map (fun p => (c :: p.1, p.2))

/-- Full match of the `getTagsFromFrontmatter` pattern: `^---\s*\n` then a lazy
capture closed by `\n---` with no trailing-newline requirement. -/
def fmMatchNoTail : List Char → Option (List Char × List Char)
  | '-' :: '-' :: '-' :: rest => matchWsStarNl matchLazyNoTail rest
  | _ => none

/-! ## text-sanitizer.ts -/

/-- `removeFrontmatter` (text-sanitizer.ts):
`content.replace(/^---\s*\n([\s\S]*?)\n---\s*\n/, '').trim()`. -/
def removeFrontmatter (content : String) : String :=
  match fmMatch content.data with
  | some (_, rest) => ⟨trimL rest⟩
  | none => ⟨trimL content.data⟩

/-- The OS-incompatible characters replaced by `sanitizeTitle`: `/\:*?"<>|`. -/
def reservedChar (c : Char) : Bool :=
  c = '/' || c = '\\' || c = ':' || c = '*' || c = '?' || c = '"' ||
  c = '<' || c = '>' || c = '|'

/-- `replace(/\s+/g, rep)` : collapse each maximal run of `\s` characters to a
single `rep` character.  `inRun` records whether the previous character was
part of a whitespace run already replaced. -/
def collapseWSAux (rep : Char) : Bool → List Char → List Char
  | _, [] => []
  | inRun, c :: cs =>
    if jsWS c then
      (if inRun then [] else [rep]) ++ collapseWSAux rep true cs
    else c :: collapseWSAux rep false cs

def collapseWS (rep : Char) (l : List Char) : List Char := collapseWSAux rep false l

/-- `sanitizeTitle` (text-sanitizer.ts): trim, replace reserved characters by a
space, collapse whitespace runs to one space, trim again. -/
def sanitizeTitle (title : String) : String :=
  let s1 := trimL title.data
  let s2 := s1.map (fun c => if reservedChar c then ' ' else c)
  let s3 := collapseWS ' ' s2
  ⟨trimL s3⟩

/-- JS `String.prototype.split(sep)` for a single-character separator;
`"".split(',')` is `[""]`. -/
def splitOnChar (sep : Char) : List Char → List (List Char)
  | [] => [[]]
  | c :: cs =>
    let r := splitOnChar sep cs
    if c = sep then [] :: r
    else
      match r with
      | [] => [[c]]
      | h :: t => (c :: h) :: t

/-- The per-candidate normalization of `normalizeTags`: trim, strip a single
leading `#` (`replace(/^#/, '')`), lowercase, collapse whitespace runs to `-`. -/
def normalizeOne (tag : List Char) : List Char :=
  let t1 := trimL tag
  let t2 := match t1 with
    | '#' :: rest => rest
    | _ => t1
  let t3 := t2.map Char.toLower
  collapseWS '-' t3

/-- `[...new Set(l)]`: de-duplicate keeping the first occurrence of each element. -/
def dedupFirstAux (seen : List (List Char)) : List (List Char) → List (List Char)
  | [] => []
  | a :: as =>
    if a ∈ seen then dedupFirstAux seen as
    else a :: dedupFirstAux (a :: seen) as

/-- The normalized, non-empty candidates of `normalizeTags`, before
de-duplication (the intermediate `normalized` array). -/
def processedCandidates (tags : List String) : List (List Char) :=
  (tags.map (fun t => normalizeOne t.data)).filter (fun t => t.length > 0)

/-- `normalizeTags` (text-sanitizer.ts) on an array input. -/
def normalizeTagsArr (tags : List String) : List String :=
  (dedupFirstAux [] (processedCandidates tags)).map (fun l => (⟨l⟩ : String))

/-- `normalizeTags` (text-sanitizer.ts) on a string input: split on `,` first. -/
def normalizeTags (tags : String) : List String :=
  normalizeTagsArr ((splitOnChar ',' tags.data).map (fun l => (⟨l⟩ : String)))

/-! ## utils/validator.ts (current) — count-map `arraysEqual`

The JS `Map<string, number>` of occurrence counts is modelled as a total
function `String → Nat` defaulting to 0 (`counts.get(item) || 0` and the
`!count` check conflate a missing key with a zero count in the same way). -/

namespace Validator

/-- One `counts.set(item, (counts.get(item) || 0) + 1)` step. -/
def bump (m : String → Nat) (s : String) : String → Nat :=
  fun x => if x = s then m s + 1 else m x

/-- The first loop of `arraysEqual`: count occurrences of each element. -/
def buildCounts (l : List String) : String → Nat :=
  l.foldl bump (fun _ => 0)

/-- The second loop of `arraysEqual`: consume counts along `arr2`;
`if (!count) return false` fires when the count is missing or zero. -/
def consume (m : String → Nat) : List String → Bool
  | [] => true
  | b :: bs =>
    if m b = 0 then false
    else consume (fun x => if x = b then m b - 1 else m x) bs

/-- `arraysEqual` (utils/validator.ts): length guard, then count-map check. -/
def arraysEqual (arr1 arr2 : List String) : Bool :=
  if arr1.length ≠ arr2.length then false
  else consume (buildCounts arr1) arr2

end Validator

/-! ## The earlier validator (sort-and-compare `arraysEqual`)

`[...arr].sort()` uses the default comparator (lexicographic string
comparison); it is modelled as the sorted permutation of the list under
Lean's lexicographic `String` order.  (JS compares UTF-16 code units, which
reorders astral-plane characters relative to code points, but any strict
total order yields the same sorted-lists-equal decision.) -/

namespace OldValidator

/-- `[...arr].sort()`. -/
def sortStrings (l : List String) : List String :=
  l.insertionSort (· ≤ ·)

/-- `sorted1.every((val, index) => val === sorted2[index])`, under the length
guard (equal lengths make the index always in range). -/
def everyEq : List String → List String → Bool
  | [], [] => true
  | a :: as, b :: bs => a == b && everyEq as bs
  | _, _ => false

/-- `arraysEqual` (the earlier validator): sort both copies and compare
element-wise. -/
def arraysEqual (arr1 arr2 : List String) : Bool :=
  if arr1.length ≠ arr2.length then false
  else everyEq (sortStrings arr1) (sortStrings arr2)

end OldValidator

/-! ## services/gemini-client.ts

`generateContentInternal` performs the HTTP call; the remote service is
modelled as an oracle `Nat → RemoteOutcome` giving, per attempt index, either
the extracted candidate text (for a 200 response whose first candidate's
first part holds non-empty text) or the message of the `Error` thrown
(HTTP-error, parse-failure or network messages alike — the retry loop only
ever inspects the message).  On success the text is trimmed before being
returned (`return text.trim()`). -/

namespace GeminiClient

def maxRetries : Nat := 3
def initialRetryDelay : Nat := 10000

/-- `startsWithL needle hay`: `needle` is a prefix of `hay`. -/
def startsWithL : List Char → List Char → Bool
  | [], _ => true
  | _ :: _, [] => false
  | a :: as, b :: bs => a == b && startsWithL as bs

/-- `hay.includes(needle)` (substring containment). -/
def containsL (needle : List Char) : List Char → Bool
  | [] => startsWithL needle []
  | c :: cs => startsWithL needle (c :: cs) || containsL needle cs

/-- `String.prototype.includes`. -/
def includes (s pat : String) : Bool := containsL pat.data s.data

/-- `error.message.includes('429') || error.message.includes('RESOURCE_EXHAUSTED')`. -/
def is429Error (msg : String) : Bool :=
  includes msg "429" || includes msg "RESOURCE_EXHAUSTED"

/-- Outcome of one remote attempt, as seen by `generateContentInternal`. -/
inductive RemoteOutcome where
  | success (raw : String)
  | failure (msg : String)

/-- Result of `generateContent`: the returned text or the thrown error message. -/
inductive GenResult where
  | ok (text : String)
  | error (msg : String)
deriving DecidableEq, Repr

/-- The message of the distinct rate-limited error raised after exhausting
retries (with `maxRetries = 3` interpolated). -/
def rateLimitedMessage : String :=
  "Gemini APIのレート制限: 3回リトライしましたが、サーバーが混雑しています。しばらく待ってから再度お試しください。"

/-- The fallback message of the unreachable `throw lastError || new Error(...)`. -/
def fallbackMessage : String := "リクエストが失敗しました。"

/-- `generateContentInternal`: issue the request for this attempt; trim the
text on success. -/
def generateContentInternal (remote : Nat → RemoteOutcome) (attempt : Nat) : GenResult :=
  match remote attempt with
  | .success raw => .ok (jsTrim raw)
  | .failure msg => .error msg

/-- Observable behaviour of one `generateContent` call: final result, number
of requests issued, and the `sleep` delays (ms) in order. -/
structure RunStats where
  result : GenResult
  requests : Nat
  delays : List Nat
deriving DecidableEq, Repr

/-- The `for (let attempt = 0; attempt <= this.maxRetries; attempt++)` retry
loop, with `fuel` the number of remaining iterations. -/
def retryLoop (remote : Nat → RemoteOutcome) : Nat → Nat → Option String → RunStats
  | 0, _, lastError => ⟨.error (lastError.getD fallbackMessage), 0, []⟩
  | fuel + 1, attempt, _ =>
    match generateContentInternal remote attempt with
    | .ok t => ⟨.ok t, 1, []⟩
    | .error msg =>
      if is429Error msg = true ∧ attempt < maxRetries then
        let d := initialRetryDelay * 2 ^ attempt
        let rest := retryLoop remote fuel (attempt + 1) (some msg)
        ⟨rest.result, rest.requests + 1, d :: rest.delays⟩
      else if is429Error msg = false then ⟨.error msg, 1, []⟩
      else ⟨.error rateLimitedMessage, 1, []⟩

/-- `generateContent` (gemini-client.ts): the retry loop from attempt 0. -/
def generateContent (remote : Nat → RemoteOutcome) : RunStats :=
  retryLoop remote (maxRetries + 1) 0 none

end GeminiClient

/-! ## main.ts — frontmatter read/write (Metadata Merge Engine)

`parseYaml` / `stringifyYaml` come from the host (js-yaml); they are modelled
abstractly by a `YamlModel` over an abstract frontmatter-object type `Fm`.
`parse` distinguishes throwing from returning a nullish value (the code
treats them differently: `parseYaml(x) || {}` versus the `catch` branch);
`setTags Y.empty tags` models the literal `{ tags }` object of
`stringifyYaml({ tags })`. -/

/-- The JS value found at `frontmatter.tags`, as far as the code inspects it. -/
inductive JsTags where
  | missing
  | nullv
  | arr (l : List String)
  | str (s : String)
  | other

/-- Result of `parseYaml`. -/
inductive ParseOutcome (Fm : Type) where
  | threw
  | nullish
  | ok (fm : Fm)

/-- Abstract model of the host YAML codec and frontmatter objects. -/
structure YamlModel (Fm : Type) where
  parse : String → ParseOutcome Fm
  empty : Fm
  setTags : Fm → List String → Fm
  getTags : Fm → JsTags
  stringify : Fm → String

/-- `getTagsFromFrontmatter` (main.ts): match the no-tail pattern, parse the
captured block, read `tags` (array as-is, non-empty string wrapped in a
singleton — the `if (frontmatter && frontmatter.tags)` truthiness test makes
an empty-string `tags` yield `[]`), `[]` on any failure. -/
def getTagsFromFrontmatter {Fm : Type} (Y : YamlModel Fm) (content : String) : List String :=
  match fmMatchNoTail content.data with
  | none => []
  | some (g, _) =>
    match Y.parse ⟨g⟩ with
    | .threw => []
    | .nullish => []
    | .ok fm =>
      match Y.getTags fm with
      | .arr l => l
      | .str s => if s = "" then [] else [s]
      | _ => []

/-- `updateTagsInFrontmatter` (main.ts).  With a matching block: parse it
(`parseYaml(match[1]) || {}`), set `tags`, re-serialize, and splice the new
block in place of the match (`content.replace(frontmatterRegex, ...)` with
the serialized block assumed free of `$`-replacement patterns); if parsing
threw, build a fresh `{ tags }` block and prepend it to
`content.replace(frontmatterRegex, '')` (the document minus the old block).
With no block, prepend a fresh block to the whole content. -/
def updateTagsInFrontmatter {Fm : Type} (Y : YamlModel Fm) (content : String)
    (tags : List String) : String :=
  match fmMatch content.data with
  | some (g, rest) =>
    match Y.parse ⟨g⟩ with
    | .threw =>
      let nf := jsTrim (Y.stringify (Y.setTags Y.empty tags))
      "---\n" ++ nf ++ "\n---\n" ++ (⟨rest⟩ : String)
    | .nullish =>
      let nf := jsTrim (Y.stringify (Y.setTags Y.empty tags))
      "---\n" ++ nf ++ "\n---\n" ++ (⟨rest⟩ : String)
    | .ok fm =>
      let nf := jsTrim (Y.stringify (Y.setTags fm tags))
      "---\n" ++ nf ++ "\n---\n" ++ (⟨rest⟩ : String)
  | none =>
    let nf := jsTrim (Y.stringify (Y.setTags Y.empty tags))
    "---\n" ++ nf ++ "\n---\n" ++ content

/-! ## main.ts — the tag command's apply step -/

/-- Which notification the tag command shows. -/
inductive TagNotice where
  | upToDate
  | updated
deriving DecidableEq, Repr

/-- Observable outcome of the tag command after generation succeeded. -/
structure TagRun where
  finalContent : String
  wrote : Bool
  notice : TagNotice
deriving DecidableEq

/-- `generateTags` (main.ts), after the generator returned `newTags`: read the
current tags, compare with `arraysEqual`; on equality skip the write and
report up-to-date, otherwise write the merged document. -/
def generateTagsApply {Fm : Type} (Y : YamlModel Fm) (content : String)
    (newTags : List String) : TagRun :=
  let currentTags := getTagsFromFrontmatter Y content
  if Validator.arraysEqual currentTags newTags then
    ⟨content, false, .upToDate⟩
  else
    ⟨updateTagsInFrontmatter Y content newTags, true, .updated⟩

/-! ## services/title-generator.ts -/

/-- `TitleGenerator.generateTitle`, given the text the Gemini client returned:
sanitize; if the sanitized title exceeds `maxTitleLength`, hard-cut with
`substring(0, maxTitleLength)` and trim. -/
def generateTitle (remoteText : String) (maxTitleLength : Nat) : String :=
  let sanitized := sanitizeTitle remoteText
  if sanitized.length > maxTitleLength then
    jsTrim ⟨sanitized.data.take maxTitleLength⟩
  else sanitized

/-! ## main.ts — the title command's apply step -/

/-- The active file as the title command sees it. -/
structure FileRef where
  path : String
  parentPath : Option String
  basename : String

/-- `file.parent ? file.parent.path + '/' + newTitle + '.md' : newTitle + '.md'`. -/
def newTitlePath (file : FileRef) (newTitle : String) : String :=
  match file.parentPath with
  | some p => p ++ "/" ++ newTitle ++ ".md"
  | none => newTitle ++ ".md"

/-- Modelled from the spec: the host document store's rename operation
(Obsidian's `app.fileManager.renameFile`), which is not part of this
repository's sources.  Per the spec (§4.5: "avoid any overwrite of an
existing different document at the destination name"), renaming onto a path
already held by a different document fails and leaves the store unchanged
(`none`); otherwise the document at `oldPath` is moved to `newPath`. -/
def renameFile (vault : List (String × String)) (oldPath newPath : String) :
    Option (List (String × String)) :=
  if newPath ≠ oldPath ∧ vault.any (fun e => e.1 = newPath) then none
  else some (vault.map (fun e => if e.1 = oldPath then (newPath, e.2) else e))

/-- Observable outcome of the title command's apply step. -/
structure TitleRun where
  vault : List (String × String)
  renamed : Bool
  errored : Bool
deriving DecidableEq

/-- `generateTitle` (main.ts), after the generator returned `newTitle`:
skip when it equals the current basename, else rename the file to the new
path inside its current parent folder; a rejected rename propagates as an
error (caught by the command's handler) with the store unchanged. -/
def generateTitleApply (vault : List (String × String)) (file : FileRef)
    (newTitle : String) : TitleRun :=
  if file.basename = newTitle then ⟨vault, false, false⟩
  else
    match renameFile vault file.path (newTitlePath file newTitle) with
    | some v => ⟨v, true, false⟩
    | none => ⟨vault, false, true⟩

/-- The container (parent directory) of a path: the prefix before the last
`/`, or `none` for a bare name. -/
def dirOf (path : String) : Option String :=
  if '/' ∈ path.data then
    some ⟨(((path.data.reverse).dropWhile (fun c => decide (c ≠ '/'))).drop 1).reverse⟩
  else none

/-! ## Concrete instances used to evaluate the embedding on explicit inputs -/

/-- `toLowerCase` lifted to strings (ASCII simple case mapping). -/
def strToLower (s : String) : String := ⟨s.data.map Char.toLower⟩

/-- A concrete YAML codec whose parser always throws (any block "fails to
parse"), serializing `{ tags }` in js-yaml block-sequence style. -/
def failingYaml : YamlModel (List String) where
  parse := fun _ => .threw
  empty := []
  setTags := fun _ tags => tags
  getTags := fun l => .arr l
  stringify := fun l => "tags:\n" ++ String.intercalate "\n" (l.map (fun t => "  - " ++ t))

/-- A concrete YAML codec that parses exactly the block `tags: [old]` (to the
tag list `["old"]`) and throws on anything else. -/
def sampleYaml : YamlModel (List String) where
  parse := fun s => if s = "tags: [old]" then .ok ["old"] else .threw
  empty := []
  setTags := fun _ tags => tags
  getTags := fun l => .arr l
  stringify := fun l => "tags:\n" ++ String.intercalate "\n" (l.map (fun t => "  - " ++ t))

/-- A concrete YAML codec that parses exactly the block `tags: [Tag1]` (to the
tag list `["Tag1"]`, stored letter case preserved) and throws on anything else. -/
def casedYaml : YamlModel (List String) where
  parse := fun s => if s = "tags: [Tag1]" then .ok ["Tag1"] else .threw
  empty := []
  setTags := fun _ tags => tags
  getTags := fun l => .arr l
  stringify := fun l => "tags:\n" ++ String.intercalate "\n" (l.map (fun t => "  - " ++ t))

/-- A remote oracle: two rate-limited attempts, then a successful one. -/
def oracleRlRlOk : Nat → GeminiClient.RemoteOutcome := fun k =>
  if k < 2 then .failure "Gemini APIエラー [429 RESOURCE_EXHAUSTED]: quota exceeded"
  else .success "  生成されたタイトル  "

/-- A remote oracle that always fails with a non-rate-limit error. -/
def oracleServerError : Nat → GeminiClient.RemoteOutcome :=
  fun _ => .failure "Gemini APIエラー [500 INTERNAL]: server error"

/-- A remote oracle that rate-limits every attempt. -/
def oracleAlwaysRl : Nat → GeminiClient.RemoteOutcome :=
  fun _ => .failure "Gemini APIエラー [429 RESOURCE_EXHAUSTED]: quota exceeded"

end TitleForge

/-! # Theorems -/

namespace TitleForge

open GeminiClient

/-! ## Generic helper lemmas -/

theorem toNat_ofNatAux (n : Nat) (h : n.isValidChar) : (Char.ofNatAux n h).toNat = n := rfl

theorem toLower_idem (c : Char) : c.toLower.toLower = c.toLower := by
  simp only [Char.toLower]
  by_cases h : c.toNat ≥ 65 ∧ c.toNat ≤ 90
  · rw [if_pos h]
    have hv : Nat.isValidChar (c.toNat + 32) := Or.inl (by omega)
    have ht : (Char.ofNat (c.toNat + 32)).toNat = c.toNat + 32 := by
      rw [Char.ofNat, dif_pos hv]; rfl
    rw [ht, if_neg (by omega)]
  · rw [if_neg h, if_neg h]

theorem trimL_length_le (l : List Char) : (trimL l).length ≤ l.length := by
  unfold trimL
  calc ((l.dropWhile jsWS).reverse.dropWhile jsWS).reverse.length
      = ((l.dropWhile jsWS).reverse.dropWhile jsWS).length := by simp
    _ ≤ (l.dropWhile jsWS).reverse.length := (List.dropWhile_sublist _).length_le
    _ = (l.dropWhile jsWS).length := by simp
    _ ≤ l.length := (List.dropWhile_sublist _).length_le

theorem length_mk (l : List Char) : (⟨l⟩ : String).length = l.length := rfl

/-! ## C1: Gemini client retry behaviour -/

/-- C1: for `GeminiClient.generateContent` with a fixed remote oracle:
(i) if the first two attempts fail with rate-limit errors (message containing
`429` or `RESOURCE_EXHAUSTED`) and the third succeeds, exactly 3 requests are
issued and the trimmed successful text is returned (after delays of 10 s and
20 s); (ii) if the first attempt fails with a non-rate-limit error, exactly 1
request is issued and that error propagates unchanged; (iii) if rate limiting
persists through all three retries (so the failures exceed the retry ceiling
of 3), exactly 4 requests are issued, the distinct rate-limited error is
raised, and the delays before the retries are 10 s, 20 s, 40 s (the 10 s base
delay doubled each attempt). -/
theorem generateContent_retry_behaviour (remote : Nat → RemoteOutcome) :
    (∀ m0 m1 raw, remote 0 = .failure m0 → remote 1 = .failure m1 →
       remote 2 = .success raw →
       is429Error m0 = true → is429Error m1 = true →
       generateContent remote = ⟨.ok (jsTrim raw), 3, [10000, 20000]⟩) ∧
    (∀ m0, remote 0 = .failure m0 → is429Error m0 = false →
       generateContent remote = ⟨.error m0, 1, []⟩) ∧
    (∀ m0 m1 m2 m3, remote 0 = .failure m0 → remote 1 = .failure m1 →
       remote 2 = .failure m2 → remote 3 = .failure m3 →
       is429Error m0 = true → is429Error m1 = true →
       is429Error m2 = true → is429Error m3 = true →
       generateContent remote =
         ⟨.error rateLimitedMessage, 4, [10000, 20000, 40000]⟩) := by
  refine ⟨?_, ?_, ?_⟩
  · intro m0 m1 raw h0 h1 h2 i0 i1
    simp [generateContent, retryLoop, generateContentInternal, h0, h1, h2, i0, i1,
      maxRetries, initialRetryDelay]
  · intro m0 h0 i0
    simp [generateContent, retryLoop, generateContentInternal, h0, i0,
      maxRetries, initialRetryDelay]
  · intro m0 m1 m2 m3 h0 h1 h2 h3 i0 i1 i2 i3
    simp [generateContent, retryLoop, generateContentInternal, h0, h1, h2, h3,
      i0, i1, i2, i3, maxRetries, initialRetryDelay]

/-- Witness for C1 at concrete oracles. -/
theorem generateContent_retry_behaviour_witness :
    generateContent oracleRlRlOk = ⟨.ok "生成されたタイトル", 3, [10000, 20000]⟩ ∧
    generateContent oracleServerError =
      ⟨.error "Gemini APIエラー [500 INTERNAL]: server error", 1, []⟩ ∧
    generateContent oracleAlwaysRl =
      ⟨.error rateLimitedMessage, 4, [10000, 20000, 40000]⟩ := by
  refine ⟨?_, ?_, ?_⟩
  · have h := (generateContent_retry_behaviour oracleRlRlOk).1
      "Gemini APIエラー [429 RESOURCE_EXHAUSTED]: quota exceeded"
      "Gemini APIエラー [429 RESOURCE_EXHAUSTED]: quota exceeded"
      "  生成されたタイトル  " rfl rfl rfl (by decide) (by decide)
    rw [h]; rfl
  · exact (generateContent_retry_behaviour oracleServerError).2.1
      "Gemini APIエラー [500 INTERNAL]: server error" rfl (by decide)
  · exact (generateContent_retry_behaviour oracleAlwaysRl).2.2
      "Gemini APIエラー [429 RESOURCE_EXHAUSTED]: quota exceeded"
      "Gemini APIエラー [429 RESOURCE_EXHAUSTED]: quota exceeded"
      "Gemini APIエラー [429 RESOURCE_EXHAUSTED]: quota exceeded"
      "Gemini APIエラー [429 RESOURCE_EXHAUSTED]: quota exceeded"
      rfl rfl rfl rfl (by decide) (by decide) (by decide) (by decide)

/-! ## C7: generated titles respect the configured maximum length -/

/-- C7: for every remote text and configured maximum,
`TitleGenerator.generateTitle` returns a title of length at most
`maxTitleLength`: an over-long sanitized result is hard-cut at exactly
`maxTitleLength` characters and trimmed of trailing whitespace; in particular
a remote response of `"Hello World"` with maximum 5 yields `"Hello"`. -/
theorem generateTitle_length_bounded :
    (∀ (remoteText : String) (maxTitleLength : Nat),
       (generateTitle remoteText maxTitleLength).length ≤ maxTitleLength) ∧
    generateTitle "Hello World" 5 = "Hello" := by
  constructor
  · intro remoteText maxTitleLength
    unfold generateTitle
    by_cases h : (sanitizeTitle remoteText).length > maxTitleLength
    · rw [if_pos h]
      calc (jsTrim ⟨(sanitizeTitle remoteText).data.take maxTitleLength⟩).length
          = (trimL ((sanitizeTitle remoteText).data.take maxTitleLength)).length := rfl
        _ ≤ ((sanitizeTitle remoteText).data.take maxTitleLength).length :=
            trimL_length_le _
        _ ≤ maxTitleLength := by simp
    · rw [if_neg h]; omega
  · rfl

end TitleForge

namespace TitleForge

/-! ## C2: merge-engine behaviour on an unparsable metadata block -/

theorem matchWsStarNl_suffix {α : Type} (cont : List Char → Option α) :
    ∀ (cs : List Char) (x : α), matchWsStarNl cont cs = some x →
      ∃ pre rest, cs = pre ++ rest ∧ cont rest = some x := by
  intro cs
  induction cs with
  | nil => intro x h; simp [matchWsStarNl] at h
  | cons c cs ih =>
    intro x h
    rw [matchWsStarNl] at h
    by_cases hws : jsWS c
    · rw [if_pos hws] at h
      cases hm : matchWsStarNl cont cs with
      | some y =>
        rw [hm] at h
        simp only [Option.some_orElse] at h
        obtain ⟨pre, rest, hpre, hcont⟩ := ih x (hm.trans h)
        exact ⟨c :: pre, rest, by rw [hpre]; rfl, hcont⟩
      | none =>
        rw [hm] at h
        simp only [Option.none_orElse] at h
        by_cases hnl : c = '\n'
        · rw [if_pos hnl] at h
          exact ⟨[c], cs, rfl, h⟩
        · rw [if_neg hnl] at h; exact absurd h (by simp)
    · rw [if_neg hws] at h; exact absurd h (by simp)

theorem matchClose_suffix {cs r : List Char} (h : matchClose cs = some r) :
    ∃ pre, cs = pre ++ r := by
  unfold matchClose at h
  split at h
  · rename_i rest
    obtain ⟨pre, rest', hpre, hcont⟩ := matchWsStarNl_suffix some rest r h
    obtain rfl : rest' = r := Option.some_injective _ hcont
    exact ⟨'\n' :: '-' :: '-' :: '-' :: pre, by rw [hpre]; simp⟩
  · exact absurd h (by simp)

theorem matchLazy_suffix :
    ∀ {cs g r : List Char}, matchLazy cs = some (g, r) → ∃ pre, cs = pre ++ r := by
  intro cs
  induction cs with
  | nil => intro g r h; simp [matchLazy, matchClose, matchWsStarNl] at h
  | cons c cs ih =>
    intro g r h
    rw [matchLazy] at h
    cases hc : matchClose (c :: cs) with
    | some r0 =>
      rw [hc] at h
      obtain ⟨-, rfl⟩ : g = [] ∧ r0 = r := by simpa using h
      exact matchClose_suffix hc
    | none =>
      rw [hc] at h
      cases hl : matchLazy cs with
      | some p =>
        rw [hl] at h
        obtain ⟨-, rfl⟩ : c :: p.1 = g ∧ p.2 = r := by simpa using h
        obtain ⟨pre, hpre⟩ := ih (g := p.1) (r := p.2) (by rw [hl])
        exact ⟨c :: pre, by rw [hpre]; rfl⟩
      | none => rw [hl] at h; simp at h

theorem fmMatch_suffix {l g r : List Char} (h : fmMatch l = some (g, r)) :
    ∃ pre, l = pre ++ r := by
  unfold fmMatch at h
  split at h
  · rename_i rest
    obtain ⟨pre1, rest1, hpre1, hcont⟩ := matchWsStarNl_suffix matchLazy rest (g, r) h
    obtain ⟨pre2, hpre2⟩ := matchLazy_suffix hcont
    exact ⟨'-' :: '-' :: '-' :: (pre1 ++ pre2), by rw [hpre1, hpre2]; simp⟩
  · exact absurd h (by simp)

/-- C2 (corrected): when the document starts with a matching metadata block
whose captured content fails to parse (`parseYaml` throws), the write path
does not fail: it synthesizes a fresh block holding only the new tags and
places it ahead of the part of the document AFTER the old block — the
unparsable block itself is discarded (`content.replace(frontmatterRegex, '')`),
not retained as body content. -/
theorem updateTags_unparsable_block {Fm : Type} (Y : YamlModel Fm)
    (content : String) (g rest : List Char) (tags : List String)
    (hm : fmMatch content.data = some (g, rest))
    (hp : Y.parse ⟨g⟩ = .threw) :
    updateTagsInFrontmatter Y content tags =
      "---\n" ++ jsTrim (Y.stringify (Y.setTags Y.empty tags)) ++ "\n---\n" ++
        (⟨rest⟩ : String) ∧
    ∃ pre, content.data = pre ++ rest := by
  constructor
  · unfold updateTagsInFrontmatter
    rw [hm]
    dsimp only
    rw [hp]
  · exact fmMatch_suffix hm

/-- Witness for C2 at the unparsable block of the repository's own test. -/
theorem updateTags_unparsable_block_witness :
    (updateTagsInFrontmatter failingYaml
        "---\ninvalid: yaml: content:\n---\nOld content" ["tag1"] =
      "---\n" ++ jsTrim (failingYaml.stringify
          (failingYaml.setTags failingYaml.empty ["tag1"])) ++ "\n---\n" ++
        (⟨"Old content".data⟩ : String)) ∧
    ∃ pre, ("---\ninvalid: yaml: content:\n---\nOld content" : String).data =
      pre ++ "Old content".data :=
  updateTags_unparsable_block failingYaml
    "---\ninvalid: yaml: content:\n---\nOld content"
    "invalid: yaml: content:".data "Old content".data ["tag1"] (by decide) rfl

/-- C2 counterexample: the claim predicts the fresh block ahead of the
original full document (unparsable block retained as body); the code instead
drops the old block, so the two disagree at this concrete document. -/
theorem updateTags_unparsable_block_cx :
    updateTagsInFrontmatter failingYaml
        "---\ninvalid: yaml: content:\n---\nOld content" ["tag1"] =
      "---\ntags:\n  - tag1\n---\nOld content" ∧
    updateTagsInFrontmatter failingYaml
        "---\ninvalid: yaml: content:\n---\nOld content" ["tag1"] ≠
      "---\ntags:\n  - tag1\n---\n" ++ "---\ninvalid: yaml: content:\n---\nOld content" := by
  constructor
  · decide
  · decide

end TitleForge

namespace TitleForge

/-! ## Tag-set equality: both `arraysEqual` implementations decide permutation -/

theorem foldl_bump_apply (l : List String) :
    ∀ (m : String → Nat) (s : String), l.foldl Validator.bump m s = m s + l.count s := by
  induction l with
  | nil => intro m s; simp
  | cons a l ih =>
    intro m s
    simp only [List.foldl_cons]
    rw [ih]
    unfold Validator.bump
    by_cases h : s = a
    · subst h; simp [List.count_cons]; omega
    · simp [h, List.count_cons, Ne.symm h]

theorem buildCounts_eq_count (l : List String) (s : String) :
    Validator.buildCounts l s = l.count s := by
  unfold Validator.buildCounts
  rw [foldl_bump_apply]
  simp

theorem consume_iff (bs : List String) :
    ∀ (m : String → Nat), Validator.consume m bs = true ↔ ∀ s, bs.count s ≤ m s := by
  induction bs with
  | nil => intro m; simp [Validator.consume]
  | cons b bs ih =>
    intro m
    rw [Validator.consume]
    by_cases hb : m b = 0
    · rw [if_pos hb]
      simp only [Bool.false_eq_true, false_iff, not_forall]
      refine ⟨b, ?_⟩
      rw [hb]
      simp [List.count_cons]
    · rw [if_neg hb, ih]
      constructor
      · intro hc s
        by_cases hs : s = b
        · subst hs
          have h1 := hc s
          rw [if_pos rfl] at h1
          simp only [List.count_cons, beq_self_eq_true, if_pos] at *
          omega
        · have h1 := hc s
          rw [if_neg hs] at h1
          simpa [List.count_cons, hs] using h1
      · intro hall s
        by_cases hs : s = b
        · subst hs
          rw [if_pos rfl]
          have h1 := hall s
          simp only [List.count_cons, beq_self_eq_true, if_pos] at h1
          omega
        · rw [if_neg hs]
          have h1 := hall s
          simpa [List.count_cons, hs] using h1

theorem arraysEqualCount_iff_perm (a b : List String) :
    Validator.arraysEqual a b = true ↔ a.Perm b := by
  unfold Validator.arraysEqual
  by_cases hlen : a.length ≠ b.length
  · rw [if_pos hlen]
    simp only [Bool.false_eq_true, false_iff]
    exact fun hp => hlen hp.length_eq
  · rw [if_neg hlen]
    push_neg at hlen
    rw [consume_iff]
    constructor
    · intro hc
      have hsub : b.Subperm a := List.subperm_ext_iff.mpr (fun x _ => by
        have h1 := hc x
        rwa [buildCounts_eq_count] at h1)
      exact (hsub.perm_of_length_le (le_of_eq hlen)).symm
    · intro hp s
      rw [buildCounts_eq_count]
      exact le_of_eq (hp.symm.count_eq s)

theorem everyEq_iff (l1 : List String) :
    ∀ l2, OldValidator.everyEq l1 l2 = true ↔ l1 = l2 := by
  induction l1 with
  | nil => intro l2; cases l2 <;> simp [OldValidator.everyEq]
  | cons a l1 ih =>
    intro l2
    cases l2 with
    | nil => simp [OldValidator.everyEq]
    | cons b l2 =>
      simp only [OldValidator.everyEq, Bool.and_eq_true, beq_iff_eq, ih, List.cons.injEq]

theorem sortStrings_eq_iff_perm (a b : List String) :
    OldValidator.sortStrings a = OldValidator.sortStrings b ↔ a.Perm b := by
  unfold OldValidator.sortStrings
  constructor
  · intro h
    have ha := (List.perm_insertionSort (fun x1 x2 => x1 ≤ x2) a).symm
    have hb := List.perm_insertionSort (fun x1 x2 => x1 ≤ x2) b
    rw [← h] at hb
    exact ha.trans hb
  · intro hp
    refine List.eq_of_perm_of_sorted ?_ (List.sorted_insertionSort _ a)
      (List.sorted_insertionSort _ b)
    exact (List.perm_insertionSort _ a).trans (hp.trans (List.perm_insertionSort _ b).symm)

theorem arraysEqualSort_iff_perm (a b : List String) :
    OldValidator.arraysEqual a b = true ↔ a.Perm b := by
  unfold OldValidator.arraysEqual
  by_cases hlen : a.length ≠ b.length
  · rw [if_pos hlen]
    simp only [Bool.false_eq_true, false_iff]
    exact fun hp => hlen hp.length_eq
  · rw [if_neg hlen, everyEq_iff]
    exact sortStrings_eq_iff_perm a b

/-- C10: the two `arraysEqual` implementations compute the same function —
for all pairs of string arrays, the count-map version (utils/validator.ts)
returns the same boolean as the sort-and-compare version (the earlier
validator), and both decide multiset equality (permutation). -/
theorem arraysEqual_implementations_agree (arr1 arr2 : List String) :
    Validator.arraysEqual arr1 arr2 = OldValidator.arraysEqual arr1 arr2 ∧
    (Validator.arraysEqual arr1 arr2 = true ↔ arr1.Perm arr2) ∧
    (OldValidator.arraysEqual arr1 arr2 = true ↔ arr1.Perm arr2) := by
  have h1 := arraysEqualCount_iff_perm arr1 arr2
  have h2 := arraysEqualSort_iff_perm arr1 arr2
  refine ⟨?_, h1, h2⟩
  cases hv : Validator.arraysEqual arr1 arr2 <;>
    cases ho : OldValidator.arraysEqual arr1 arr2 <;>
      simp_all

/-! ## C6: the tag idempotence guard -/

/-- C6: whenever the newly generated tag list equals the document's current
tag list as a multiset (same elements with the same repetition counts,
regardless of order), the tag command performs no write: the document text is
left unchanged and the caller is notified the value is already current. -/
theorem generateTags_idempotence_guard {Fm : Type} (Y : YamlModel Fm)
    (content : String) (newTags : List String)
    (h : (getTagsFromFrontmatter Y content).Perm newTags) :
    generateTagsApply Y content newTags =
      ⟨content, false, TagNotice.upToDate⟩ := by
  unfold generateTagsApply
  rw [if_pos ((arraysEqualCount_iff_perm _ _).mpr h)]

/-- Witness for C6 at the spec's end-to-end scenario: a document whose block
holds `tags: [old]` with body `text`, and newly generated tags `["old"]`. -/
theorem generateTags_idempotence_guard_witness :
    generateTagsApply sampleYaml "---\ntags: [old]\n---\ntext" ["old"] =
      ⟨"---\ntags: [old]\n---\ntext", false, TagNotice.upToDate⟩ :=
  generateTags_idempotence_guard sampleYaml "---\ntags: [old]\n---\ntext" ["old"]
    (by decide)

end TitleForge

namespace TitleForge

/-! ## Elements of `normalizeTags` output: lowercase-fixed, non-empty,
whitespace-free -/

theorem dedupFirstAux_subset :
    ∀ (seen l : List (List Char)) (x : List Char),
      x ∈ dedupFirstAux seen l → x ∈ l := by
  intro seen l
  induction l generalizing seen with
  | nil => intro x h; simp [dedupFirstAux] at h
  | cons a as ih =>
    intro x h
    rw [dedupFirstAux] at h
    by_cases ha : a ∈ seen
    · rw [if_pos ha] at h
      exact List.mem_cons_of_mem _ (ih seen x h)
    · rw [if_neg ha] at h
      rcases List.mem_cons.mp h with rfl | h
      · exact List.mem_cons_self _ _
      · exact List.mem_cons_of_mem _ (ih _ x h)

theorem mem_collapseWSAux {rep : Char} :
    ∀ {l : List Char} {b : Bool} {c : Char}, c ∈ collapseWSAux rep b l →
      c = rep ∨ (c ∈ l ∧ jsWS c = false) := by
  intro l
  induction l with
  | nil => intro b c h; simp [collapseWSAux] at h
  | cons a as ih =>
    intro b c h
    rw [collapseWSAux] at h
    by_cases hws : jsWS a
    · rw [if_pos hws] at h
      rw [List.mem_append] at h
      rcases h with h | h
      · left
        cases b with
        | true => simp at h
        | false => simpa using h
      · rcases ih h with rfl | ⟨hmem, hws'⟩
        · left; rfl
        · exact Or.inr ⟨List.mem_cons_of_mem _ hmem, hws'⟩
    · rw [if_neg hws] at h
      rcases List.mem_cons.mp h with rfl | h
      · exact Or.inr ⟨List.mem_cons_self _ _, by simpa using hws⟩
      · rcases ih h with rfl | ⟨hmem, hws'⟩
        · left; rfl
        · exact Or.inr ⟨List.mem_cons_of_mem _ hmem, hws'⟩

theorem mem_normalizeOne {c : Char} {t : List Char} (h : c ∈ normalizeOne t) :
    c.toLower = c ∧ jsWS c = false := by
  simp only [normalizeOne, collapseWS] at h
  rcases mem_collapseWSAux h with rfl | ⟨hmem, hws⟩
  · exact ⟨by decide, by decide⟩
  · refine ⟨?_, hws⟩
    rw [List.mem_map] at hmem
    obtain ⟨y, -, rfl⟩ := hmem
    exact toLower_idem y

theorem mem_normalizeTagsArr {t : String} {tags : List String}
    (h : t ∈ normalizeTagsArr tags) :
    strToLower t = t ∧ t ≠ "" ∧ ∀ c ∈ t.data, jsWS c = false := by
  unfold normalizeTagsArr at h
  rw [List.mem_map] at h
  obtain ⟨x, hx, rfl⟩ := h
  have hxp : x ∈ processedCandidates tags := dedupFirstAux_subset _ _ _ hx
  unfold processedCandidates at hxp
  rw [List.mem_filter] at hxp
  obtain ⟨hxm, hxlen⟩ := hxp
  rw [List.mem_map] at hxm
  obtain ⟨src, -, rfl⟩ := hxm
  refine ⟨?_, ?_, ?_⟩
  · show (⟨(normalizeOne src.data).map Char.toLower⟩ : String) = ⟨normalizeOne src.data⟩
    have hmap : (normalizeOne src.data).map Char.toLower = normalizeOne src.data := by
      have := List.map_congr_left (l := normalizeOne src.data)
        (f := Char.toLower) (g := id) (fun c hc => (mem_normalizeOne hc).1)
      rw [this, List.map_id]
    rw [hmap]
  · intro heq
    have : normalizeOne src.data = [] := congrArg String.data heq
    simp [this] at hxlen
  · intro c hc
    exact (mem_normalizeOne hc).2

/-! ## C9: the idempotence comparison is verbatim and case-sensitive -/

/-- C9: `getTagsFromFrontmatter` returns the stored tag strings verbatim and
`arraysEqual` compares them by exact string equality, so whenever the stored
tags differ from the newly generated normalized tags only in letter case
(same lists after lowercasing the stored side, but not equal as stored), the
guard reports not-equal and the document is rewritten. -/
theorem tags_compared_case_sensitively {Fm : Type} (Y : YamlModel Fm)
    (content rawResponse : String)
    (hlower : (getTagsFromFrontmatter Y content).map strToLower =
      normalizeTags rawResponse)
    (hne : getTagsFromFrontmatter Y content ≠ normalizeTags rawResponse) :
    generateTagsApply Y content (normalizeTags rawResponse) =
      ⟨updateTagsInFrontmatter Y content (normalizeTags rawResponse), true,
        TagNotice.updated⟩ := by
  have hnoperm :
      ¬ (getTagsFromFrontmatter Y content).Perm (normalizeTags rawResponse) := by
    intro hp
    apply hne
    have hfix : ∀ x ∈ getTagsFromFrontmatter Y content, strToLower x = x := by
      intro x hx
      have hxn : x ∈ normalizeTags rawResponse := hp.subset hx
      unfold normalizeTags at hxn
      exact (mem_normalizeTagsArr hxn).1
    calc getTagsFromFrontmatter Y content
        = (getTagsFromFrontmatter Y content).map strToLower := by
          rw [List.map_congr_left (g := id) hfix, List.map_id]
      _ = normalizeTags rawResponse := hlower
  have hfalse :
      ¬ (Validator.arraysEqual (getTagsFromFrontmatter Y content)
        (normalizeTags rawResponse) = true) := by
    rw [arraysEqualCount_iff_perm]
    exact hnoperm
  unfold generateTagsApply
  rw [if_neg hfalse]

/-- Witness for C9: stored tags `["Tag1"]`, generated tags
`normalizeTags "tag1" = ["tag1"]` — they differ only in case, so a rewrite
occurs. -/
theorem tags_compared_case_sensitively_witness :
    generateTagsApply casedYaml "---\ntags: [Tag1]\n---\ntext"
        (normalizeTags "tag1") =
      ⟨updateTagsInFrontmatter casedYaml "---\ntags: [Tag1]\n---\ntext"
          (normalizeTags "tag1"), true, TagNotice.updated⟩ :=
  tags_compared_case_sensitively casedYaml "---\ntags: [Tag1]\n---\ntext" "tag1"
    (by decide) (by decide)

end TitleForge

namespace TitleForge

/-! ## C4: de-duplication keeps first occurrences in order -/

theorem dedupFirstAux_congr :
    ∀ (l s t : List (List Char)), (∀ x ∈ l, x ∈ s ↔ x ∈ t) →
      dedupFirstAux s l = dedupFirstAux t l := by
  intro l
  induction l with
  | nil => intros; rfl
  | cons a as ih =>
    intro s t hag
    rw [dedupFirstAux, dedupFirstAux]
    have ha := hag a (List.mem_cons_self _ _)
    by_cases has : a ∈ s
    · rw [if_pos has, if_pos (ha.mp has)]
      exact ih s t (fun x hx => hag x (List.mem_cons_of_mem _ hx))
    · rw [if_neg has, if_neg (fun h => has (ha.mpr h))]
      congr 1
      refine ih (a :: s) (a :: t) (fun x hx => ?_)
      rw [List.mem_cons, List.mem_cons, hag x (List.mem_cons_of_mem _ hx)]

theorem dedupFirstAux_filter_seen :
    ∀ (l : List (List Char)) (s : List (List Char)) (y : List Char), y ∈ s →
      dedupFirstAux s l = dedupFirstAux s (l.filter (fun x => decide (x ≠ y))) := by
  intro l
  induction l with
  | nil => intros; rfl
  | cons a as ih =>
    intro s y hy
    rw [List.filter_cons]
    by_cases hay : a = y
    · subst hay
      rw [if_neg (by simp), dedupFirstAux, if_pos hy]
      exact ih s a hy
    · rw [if_pos (by simpa using hay), dedupFirstAux, dedupFirstAux]
      by_cases has : a ∈ s
      · rw [if_pos has, if_pos has]
        exact ih s y hy
      · rw [if_neg has, if_neg has]
        congr 1
        exact ih (a :: s) y (List.mem_cons_of_mem _ hy)

theorem dedupFirst_cons (a : List Char) (l : List (List Char)) :
    dedupFirstAux [] (a :: l) =
      a :: dedupFirstAux [] (l.filter (fun x => decide (x ≠ a))) := by
  rw [dedupFirstAux, if_neg (by simp)]
  congr 1
  rw [dedupFirstAux_filter_seen l [a] a (by simp)]
  refine dedupFirstAux_congr _ [a] [] (fun x hx => ?_)
  rw [List.mem_filter] at hx
  have hxa : x ≠ a := by simpa using hx.2
  simp [hxa]

theorem indexOf_cons_self' (a : List Char) (l : List (List Char)) :
    (a :: l).indexOf a = 0 := by
  simp [List.indexOf, List.findIdx_cons]

theorem indexOf_cons_ne' {x b : List Char} (h : x ≠ b) (l : List (List Char)) :
    (b :: l).indexOf x = l.indexOf x + 1 := by
  have hb : (b == x) = false := by
    simp [Ne.symm h]
  simp [List.indexOf, List.findIdx_cons, hb]

theorem indexOf_filter_lt (a : List Char) :
    ∀ (l : List (List Char)) (x y : List Char), x ≠ a → y ≠ a →
      (l.filter (fun z => decide (z ≠ a))).indexOf x <
        (l.filter (fun z => decide (z ≠ a))).indexOf y →
      l.indexOf x < l.indexOf y := by
  intro l
  induction l with
  | nil => intro x y _ _ hlt; simp at hlt
  | cons b l ih =>
    intro x y hxa hya hlt
    rw [List.filter_cons] at hlt
    by_cases hba : b = a
    · rw [if_neg (by simp [hba])] at hlt
      have hxb : x ≠ b := hba ▸ hxa
      have hyb : y ≠ b := hba ▸ hya
      rw [indexOf_cons_ne' hxb, indexOf_cons_ne' hyb]
      exact Nat.succ_lt_succ (ih x y hxa hya hlt)
    · rw [if_pos (by simpa using hba)] at hlt
      by_cases hxb : x = b
      · subst hxb
        have hyx : y ≠ x := by
          intro h
          subst h
          exact absurd hlt (lt_irrefl _)
        rw [indexOf_cons_self', indexOf_cons_ne' hyx]
        exact Nat.succ_pos _
      · by_cases hyb : y = b
        · subst hyb
          rw [indexOf_cons_self'] at hlt
          exact absurd hlt (Nat.not_lt_zero _)
        · rw [indexOf_cons_ne' hxb, indexOf_cons_ne' hyb] at hlt
          rw [indexOf_cons_ne' hxb, indexOf_cons_ne' hyb]
          exact Nat.succ_lt_succ (ih x y hxa hya (Nat.lt_of_succ_lt_succ hlt))

theorem mem_filter_ne {l : List (List Char)} {a x : List Char}
    (h : x ∈ l.filter (fun z => decide (z ≠ a))) : x ∈ l ∧ x ≠ a := by
  rw [List.mem_filter] at h
  exact ⟨h.1, by simpa using h.2⟩

theorem dedupFirst_pairwise_indexOf : ∀ (l : List (List Char)),
    (dedupFirstAux [] l).Pairwise (fun x y => l.indexOf x < l.indexOf y)
  | [] => by simp [dedupFirstAux]
  | a :: l => by
    rw [dedupFirst_cons]
    refine List.Pairwise.cons ?_ ?_
    · intro y hy
      have hyl := mem_filter_ne (dedupFirstAux_subset _ _ _ hy)
      rw [indexOf_cons_self', indexOf_cons_ne' hyl.2]
      exact Nat.succ_pos _
    · have hp := dedupFirst_pairwise_indexOf (l.filter (fun x => decide (x ≠ a)))
      refine hp.imp_of_mem ?_
      intro x y hx hy hlt
      have hxl := mem_filter_ne (dedupFirstAux_subset _ _ _ hx)
      have hyl := mem_filter_ne (dedupFirstAux_subset _ _ _ hy)
      rw [indexOf_cons_ne' hxl.2, indexOf_cons_ne' hyl.2]
      exact Nat.succ_lt_succ (indexOf_filter_lt a l x y hxl.2 hyl.2 hlt)
termination_by l => l.length
decreasing_by
  simp only [List.length_cons]
  exact Nat.lt_succ_of_le (List.length_filter_le _ _)

theorem dedupFirst_nodup (l : List (List Char)) : (dedupFirstAux [] l).Nodup :=
  (dedupFirst_pairwise_indexOf l).imp (fun h heq => by subst heq; exact lt_irrefl _ h)

theorem string_mk_injective : Function.Injective (fun l => (⟨l⟩ : String)) :=
  fun _ _ h => congrArg String.data h

/-- C4 (amended): every element of the `normalizeTags` output — for a
comma-separated string input or a list input — is non-empty, lowercase (a
fixed point of the modelled `toLowerCase`), and contains no whitespace
character; the output contains no duplicates; and the output lists the
normalized candidates in order of first occurrence (strictly increasing
first-occurrence indices).  (The original claim's "contains no `#`" clause
does not hold: only a single leading `#` is stripped per candidate.) -/
theorem normalizeTags_output_properties :
    (∀ (raw : String), ∀ t ∈ normalizeTags raw,
        t ≠ "" ∧ strToLower t = t ∧ ∀ c ∈ t.data, jsWS c = false) ∧
    (∀ (raws : List String), ∀ t ∈ normalizeTagsArr raws,
        t ≠ "" ∧ strToLower t = t ∧ ∀ c ∈ t.data, jsWS c = false) ∧
    (∀ raw : String, (normalizeTags raw).Nodup) ∧
    (∀ raws : List String, (normalizeTagsArr raws).Nodup) ∧
    (∀ raws : List String,
      (normalizeTagsArr raws).Pairwise (fun x y =>
        (processedCandidates raws).indexOf x.data <
          (processedCandidates raws).indexOf y.data)) := by
  have harr : ∀ (raws : List String), ∀ t ∈ normalizeTagsArr raws,
      t ≠ "" ∧ strToLower t = t ∧ ∀ c ∈ t.data, jsWS c = false := by
    intro raws t ht
    obtain ⟨h1, h2, h3⟩ := mem_normalizeTagsArr ht
    exact ⟨h2, h1, h3⟩
  have hnodup : ∀ raws : List String, (normalizeTagsArr raws).Nodup := by
    intro raws
    exact (dedupFirst_nodup _).map string_mk_injective
  refine ⟨?_, harr, ?_, hnodup, ?_⟩
  · intro raw t ht
    exact harr _ t ht
  · intro raw
    exact hnodup _
  · intro raws
    unfold normalizeTagsArr
    rw [List.pairwise_map]
    exact dedupFirst_pairwise_indexOf _
  
/-- Witness for C4 at the spec's tag scenario `"Tag1, Tag2, Tag1"`. -/
theorem normalizeTags_output_properties_witness :
    ("tag1" ≠ "" ∧ strToLower "tag1" = "tag1" ∧
      ∀ c ∈ ("tag1" : String).data, jsWS c = false) ∧
    (normalizeTags "Tag1, Tag2, Tag1").Nodup ∧
    normalizeTags "Tag1, Tag2, Tag1" = ["tag1", "tag2"] :=
  ⟨normalizeTags_output_properties.1 "Tag1, Tag2, Tag1" "tag1" (by decide),
   normalizeTags_output_properties.2.2.1 "Tag1, Tag2, Tag1",
   by decide⟩

/-- C4 counterexample: `normalizeTags "##a"` yields `["#a"]`, whose element
contains `#` — the claim's "contains no `#` character" clause fails because
only a single leading `#` is stripped. -/
theorem normalizeTags_hash_cx :
    normalizeTags "##a" = ["#a"] ∧ '#' ∈ ("#a" : String).data := by
  constructor <;> decide

end TitleForge

namespace TitleForge

/-! ## Matcher lemmas for C3 and C5 -/

theorem trimL_cons_ws {c : Char} {l : List Char} (h : jsWS c = true) :
    trimL (c :: l) = trimL l := by
  unfold trimL
  rw [List.dropWhile_cons, if_pos h]

theorem matchWsStarNl_some_nl (u : List Char) :
    ∃ r, matchWsStarNl some ('\n' :: u) = some r := by
  rw [matchWsStarNl, if_pos (by decide)]
  cases hm : matchWsStarNl some u with
  | some r => exact ⟨r, by simp⟩
  | none => exact ⟨u, by simp⟩

theorem matchWsStarNl_some_trim :
    ∀ (u : List Char) {r : List Char}, matchWsStarNl some u = some r →
      trimL r = trimL u := by
  intro u
  induction u with
  | nil => intro r h; simp [matchWsStarNl] at h
  | cons c cs ih =>
    intro r h
    rw [matchWsStarNl] at h
    by_cases hws : jsWS c
    · rw [if_pos hws] at h
      cases hm : matchWsStarNl some cs with
      | some y =>
        rw [hm] at h
        simp only [Option.some_orElse] at h
        obtain rfl : y = r := Option.some_injective _ h
        rw [ih hm, trimL_cons_ws hws]
      | none =>
        rw [hm] at h
        simp only [Option.none_orElse] at h
        by_cases hnl : c = '\n'
        · rw [if_pos hnl] at h
          obtain rfl : cs = r := Option.some_injective _ h
          rw [trimL_cons_ws hws]
        · rw [if_neg hnl] at h
          exact absurd h (by simp)
    · rw [if_neg hws] at h
      exact absurd h (by simp)

theorem startsClose_iff (l : List Char) :
    startsClose l = true ↔ ∃ t, l = '\n' :: '-' :: '-' :: '-' :: t := by
  constructor
  · intro h
    unfold startsClose at h
    split at h
    · rename_i t; exact ⟨t, rfl⟩
    · exact absurd h (by simp)
  · rintro ⟨t, rfl⟩
    rfl

theorem startsClose_false_iff (l : List Char) :
    startsClose l = false ↔ ∀ t, l ≠ '\n' :: '-' :: '-' :: '-' :: t := by
  constructor
  · rintro h t rfl
    simp [startsClose] at h
  · intro h
    cases hs : startsClose l with
    | false => rfl
    | true =>
      obtain ⟨t, rfl⟩ := (startsClose_iff _).mp hs
      exact absurd rfl (h t)

theorem matchClose_eq_none_of_no_close {l : List Char}
    (h : ∀ t, l ≠ '\n' :: '-' :: '-' :: '-' :: t) : matchClose l = none := by
  unfold matchClose
  split
  · rename_i t
    exact absurd rfl (h t)
  · rfl

theorem containsClose_cons_elim {c : Char} {cs : List Char}
    (h : containsClose (c :: cs) = false) :
    (∀ t, c :: cs ≠ '\n' :: '-' :: '-' :: '-' :: t) ∧ containsClose cs = false := by
  rw [containsClose, Bool.or_eq_false_iff] at h
  exact ⟨(startsClose_false_iff _).mp h.1, h.2⟩

theorem ne_close_append {c : Char} {v : List Char}
    (h : ∀ t, c :: v ≠ '\n' :: '-' :: '-' :: '-' :: t) (xs : List Char) :
    ∀ t, c :: (v ++ '\n' :: xs) ≠ '\n' :: '-' :: '-' :: '-' :: t := by
  intro t heq
  rcases v with _ | ⟨d1, _ | ⟨d2, _ | ⟨d3, v'⟩⟩⟩
  · simp only [List.nil_append, List.cons.injEq] at heq
    exact absurd heq.2.1 (by decide)
  · simp only [List.cons_append, List.nil_append, List.cons.injEq] at heq
    exact absurd heq.2.2.1 (by decide)
  · simp only [List.cons_append, List.nil_append, List.cons.injEq] at heq
    exact absurd heq.2.2.2.1 (by decide)
  · simp only [List.cons_append, List.cons.injEq] at heq
    obtain ⟨rfl, rfl, rfl, rfl, -⟩ := heq
    exact h v' rfl

theorem matchLazy_eq_none_of_not_containsClose :
    ∀ {u : List Char}, containsClose u = false → matchLazy u = none := by
  intro u
  induction u with
  | nil => intro h; rfl
  | cons c cs ih =>
    intro h
    obtain ⟨h1, h2⟩ := containsClose_cons_elim h
    rw [matchLazy, matchClose_eq_none_of_no_close h1]
    dsimp only
    rw [ih h2]
    rfl

theorem matchLazy_intended (rest : List Char) :
    ∀ (v : List Char), containsClose v = false →
      ∃ r, matchLazy (v ++ '\n' :: '-' :: '-' :: '-' :: '\n' :: rest) = some (v, r) ∧
        trimL r = trimL rest := by
  intro v
  induction v with
  | nil =>
    intro _
    obtain ⟨r, hr⟩ := matchWsStarNl_some_nl rest
    refine ⟨r, ?_, ?_⟩
    · rw [List.nil_append, matchLazy]
      rw [show matchClose ('\n' :: '-' :: '-' :: '-' :: '\n' :: rest) =
        matchWsStarNl some ('\n' :: rest) from rfl, hr]
    · rw [matchWsStarNl_some_trim _ hr, trimL_cons_ws (by decide)]
  | cons c v ih =>
    intro hv
    obtain ⟨h1, h2⟩ := containsClose_cons_elim hv
    obtain ⟨r, hr, htrim⟩ := ih h2
    refine ⟨r, ?_, htrim⟩
    rw [List.cons_append, matchLazy,
      matchClose_eq_none_of_no_close (ne_close_append h1 ('-' :: '-' :: '-' :: '\n' :: rest))]
    dsimp only
    rw [hr]
    rfl

end TitleForge

namespace TitleForge

theorem matchWsStarNl_body (rest : List Char) :
    ∀ (b : List Char), containsClose b = false → (∃ c ∈ b, jsWS c = false) →
      matchWsStarNl matchLazy (b ++ '\n' :: '-' :: '-' :: '-' :: '\n' :: rest) = none ∨
      ∃ v r, matchWsStarNl matchLazy (b ++ '\n' :: '-' :: '-' :: '-' :: '\n' :: rest) =
        some (v, r) ∧ trimL r = trimL rest := by
  intro b
  induction b with
  | nil =>
    rintro _ ⟨c, hc, -⟩
    simp at hc
  | cons c b ih =>
    intro hcc hex
    obtain ⟨h1, h2⟩ := containsClose_cons_elim hcc
    rw [List.cons_append, matchWsStarNl]
    by_cases hws : jsWS c
    · rw [if_pos hws]
      have hex' : ∃ d ∈ b, jsWS d = false := by
        rcases hex with ⟨d, hd, hdws⟩
        rcases List.mem_cons.mp hd with rfl | hd
        · rw [hws] at hdws
          exact absurd hdws (by simp)
        · exact ⟨d, hd, hdws⟩
      rcases ih h2 hex' with hnone | ⟨v, r, hsome, htrim⟩
      · rw [hnone]
        simp only [Option.none_orElse]
        by_cases hnl : c = '\n'
        · rw [if_pos hnl]
          obtain ⟨r, hr, htrim⟩ := matchLazy_intended rest b h2
          exact Or.inr ⟨b, r, hr, htrim⟩
        · rw [if_neg hnl]
          exact Or.inl rfl
      · rw [hsome]
        exact Or.inr ⟨v, r, by simp, htrim⟩
    · rw [if_neg hws]
      exact Or.inl rfl

theorem matchWsStarNl_matchLazy_none :
    ∀ {u : List Char}, containsClose u = false →
      matchWsStarNl matchLazy u = none := by
  intro u
  induction u with
  | nil => intro _; rfl
  | cons c cs ih =>
    intro h
    obtain ⟨h1, h2⟩ := containsClose_cons_elim h
    rw [matchWsStarNl]
    by_cases hws : jsWS c
    · rw [if_pos hws, ih h2]
      simp only [Option.none_orElse]
      by_cases hnl : c = '\n'
      · rw [if_pos hnl]
        exact matchLazy_eq_none_of_not_containsClose h2
      · rw [if_neg hnl]
    · rw [if_neg hws]

theorem matchLazy_no_tail_none :
    ∀ (v : List Char), containsClose v = false →
      matchLazy (v ++ ['\n', '-', '-', '-']) = none := by
  intro v
  induction v with
  | nil => intro _; decide
  | cons c v ih =>
    intro h
    obtain ⟨h1, h2⟩ := containsClose_cons_elim h
    rw [List.cons_append, matchLazy,
      matchClose_eq_none_of_no_close (ne_close_append h1 ['-', '-', '-'])]
    dsimp only
    rw [ih h2]
    rfl

theorem matchWsStarNl_no_tail_none :
    ∀ (b : List Char), containsClose b = false →
      matchWsStarNl matchLazy (b ++ ['\n', '-', '-', '-']) = none := by
  intro b
  induction b with
  | nil => intro _; decide
  | cons c b ih =>
    intro h
    obtain ⟨h1, h2⟩ := containsClose_cons_elim h
    rw [List.cons_append, matchWsStarNl]
    by_cases hws : jsWS c
    · rw [if_pos hws, ih h2]
      simp only [Option.none_orElse]
      by_cases hnl : c = '\n'
      · rw [if_pos hnl]
        exact matchLazy_no_tail_none b h2
      · rw [if_neg hnl]
    · rw [if_neg hws]

/-! ## C3: documents without a full block are only trimmed -/

/-- C3 (amended): whenever the frontmatter pattern does not match — in
particular for every document opening with the delimiter whose remainder
contains no close sequence `\n---` (an unterminated block), and for every
document whose block is closed without a trailing newline —
`removeFrontmatter` returns the input with only leading and trailing
whitespace trimmed, and is byte-for-byte equal to the input exactly when the
input has no such edge whitespace.  (The claim's unconditional "byte-for-byte
equal" fails: the final `.trim()` is applied even when no block is removed.) -/
theorem removeFrontmatter_no_block :
    (∀ s : String, fmMatch s.data = none → removeFrontmatter s = jsTrim s) ∧
    (∀ u : String, containsClose u.data = false →
        removeFrontmatter ("---" ++ u) = jsTrim ("---" ++ u)) ∧
    (∀ body : String, containsClose body.data = false →
        removeFrontmatter ("---\n" ++ body ++ "\n---") =
          jsTrim ("---\n" ++ body ++ "\n---")) ∧
    (∀ s : String, fmMatch s.data = none → trimL s.data = s.data →
        removeFrontmatter s = s) := by
  have ha : ∀ s : String, fmMatch s.data = none → removeFrontmatter s = jsTrim s := by
    intro s h
    unfold removeFrontmatter
    rw [h]
    rfl
  refine ⟨ha, ?_, ?_, ?_⟩
  · intro u hu
    refine ha _ ?_
    have hd : ("---" ++ u).data = '-' :: '-' :: '-' :: u.data := by
      rw [String.data_append]
      rfl
    rw [hd, show fmMatch ('-' :: '-' :: '-' :: u.data) =
      matchWsStarNl matchLazy u.data from rfl]
    exact matchWsStarNl_matchLazy_none hu
  · intro body hb
    refine ha _ ?_
    have hd : ("---\n" ++ body ++ "\n---").data =
        '-' :: '-' :: '-' :: '\n' :: (body.data ++ ['\n', '-', '-', '-']) := by
      rw [String.data_append, String.data_append]
      show ['-', '-', '-', '\n'] ++ body.data ++ ['\n', '-', '-', '-'] = _
      simp
    rw [hd, show fmMatch ('-' :: '-' :: '-' :: '\n' :: (body.data ++ ['\n', '-', '-', '-'])) =
      matchWsStarNl matchLazy ('\n' :: (body.data ++ ['\n', '-', '-', '-'])) from rfl]
    rw [matchWsStarNl, if_pos (by decide), matchWsStarNl_no_tail_none body.data hb]
    simp only [Option.none_orElse, if_pos rfl]
    exact matchLazy_no_tail_none body.data hb
  · intro s h htrim
    rw [ha s h]
    show (⟨trimL s.data⟩ : String) = s
    rw [htrim]

/-- Witness for C3 at concrete documents from the repository's tests: a
document with no opening delimiter, an unterminated block, a block closed
without a trailing newline, and the byte-for-byte case. -/
theorem removeFrontmatter_no_block_witness :
    removeFrontmatter "Some content\n---\nMore content" =
      jsTrim "Some content\n---\nMore content" ∧
    removeFrontmatter ("---" ++ "\ntitle: Test\nContent here") =
      jsTrim ("---" ++ "\ntitle: Test\nContent here") ∧
    removeFrontmatter ("---\n" ++ "title: Test" ++ "\n---") =
      jsTrim ("---\n" ++ "title: Test" ++ "\n---") ∧
    removeFrontmatter "---\ntitle: Test\nContent here" =
      "---\ntitle: Test\nContent here" :=
  ⟨removeFrontmatter_no_block.1 _ (by decide),
   removeFrontmatter_no_block.2.1 "\ntitle: Test\nContent here" (by decide),
   removeFrontmatter_no_block.2.2.1 "title: Test" (by decide),
   removeFrontmatter_no_block.2.2.2 _ (by decide) (by decide)⟩

/-- C3 counterexample: the unterminated document `"---\na\n"` falls in the
claim's family but is returned trimmed — not byte-for-byte equal to the
input. -/
theorem removeFrontmatter_no_block_cx :
    removeFrontmatter "---\na\n" = "---\na" ∧
    removeFrontmatter "---\na\n" ≠ "---\na\n" := by
  constructor <;> decide

/-! ## C5: the frontmatter round-trip -/

/-- C5 (amended): for every `body` containing no close sequence `\n---` and
at least one non-whitespace character, and every `rest`,
`removeFrontmatter ("---\n" + body + "\n---\n" + rest)` equals `rest.trim()`.
(Unrestricted bodies falsify the claim: a body embedding its own close
delimiter ends the lazy match early, and an all-whitespace body lets the
greedy `\s*` overshoot the intended close and possibly re-close inside
`rest`.) -/
theorem removeFrontmatter_roundtrip (body rest : String)
    (hb : containsClose body.data = false)
    (hnw : ∃ c ∈ body.data, jsWS c = false) :
    removeFrontmatter ("---\n" ++ body ++ "\n---\n" ++ rest) = jsTrim rest := by
  have hdata : ("---\n" ++ body ++ "\n---\n" ++ rest).data =
      '-' :: '-' :: '-' :: '\n' ::
        (body.data ++ '\n' :: '-' :: '-' :: '-' :: '\n' :: rest.data) := by
    rw [String.data_append, String.data_append, String.data_append]
    show ['-', '-', '-', '\n'] ++ body.data ++ ['\n', '-', '-', '-', '\n'] ++ rest.data = _
    simp
  have hfm : ∃ g r, fmMatch ("---\n" ++ body ++ "\n---\n" ++ rest).data = some (g, r) ∧
      trimL r = trimL rest.data := by
    rw [hdata, show fmMatch ('-' :: '-' :: '-' :: '\n' ::
        (body.data ++ '\n' :: '-' :: '-' :: '-' :: '\n' :: rest.data)) =
      matchWsStarNl matchLazy ('\n' ::
        (body.data ++ '\n' :: '-' :: '-' :: '-' :: '\n' :: rest.data)) from rfl]
    rw [matchWsStarNl, if_pos (by decide)]
    rcases matchWsStarNl_body rest.data body.data hb hnw with hnone | ⟨v, r, hsome, htrim⟩
    · rw [hnone]
      simp only [Option.none_orElse, if_pos rfl]
      obtain ⟨r, hr, htrim⟩ := matchLazy_intended rest.data body.data hb
      exact ⟨body.data, r, hr, htrim⟩
    · rw [hsome]
      simp only [Option.some_orElse]
      exact ⟨v, r, rfl, htrim⟩
  obtain ⟨g, r, hsome, htrim⟩ := hfm
  unfold removeFrontmatter
  rw [hsome]
  show (⟨trimL r⟩ : String) = jsTrim rest
  rw [htrim]
  rfl

/-- Witness for C5 at `body = "x"`, `rest = " r "`. -/
theorem removeFrontmatter_roundtrip_witness :
    (containsClose ("x" : String).data = false ∧
      ∃ c ∈ ("x" : String).data, jsWS c = false) ∧
    removeFrontmatter ("---\n" ++ "x" ++ "\n---\n" ++ " r ") = jsTrim " r " :=
  ⟨⟨by decide, by decide⟩,
   removeFrontmatter_roundtrip "x" " r " (by decide) (by decide)⟩

/-- C5 counterexample: with `body = "a\n---\nb"` (embedding a close
delimiter) and `rest = "r"`, the lazy match closes at the embedded delimiter:
the result is `"b\n---\nr"`, not `rest.trim() = "r"`. -/
theorem removeFrontmatter_roundtrip_cx :
    removeFrontmatter ("---\n" ++ "a\n---\nb" ++ "\n---\n" ++ "r") = "b\n---\nr" ∧
    removeFrontmatter ("---\n" ++ "a\n---\nb" ++ "\n---\n" ++ "r") ≠ "r" := by
  constructor <;> decide

end TitleForge

namespace TitleForge

/-! ## C8: title application stays in the container and never overwrites -/

theorem mem_trimL {c : Char} {l : List Char} (h : c ∈ trimL l) : c ∈ l := by
  unfold trimL at h
  rw [List.mem_reverse] at h
  have h2 := (List.dropWhile_sublist _).subset h
  rw [List.mem_reverse] at h2
  exact (List.dropWhile_sublist _).subset h2

theorem sanitizeTitle_no_reserved {s : String} :
    ∀ c ∈ (sanitizeTitle s).data, reservedChar c = false := by
  intro c hc
  have hc1 : c ∈ collapseWS ' ' ((trimL s.data).map
      (fun c => if reservedChar c then ' ' else c)) := mem_trimL hc
  rw [collapseWS] at hc1
  rcases mem_collapseWSAux hc1 with rfl | ⟨hmem, -⟩
  · decide
  · rw [List.mem_map] at hmem
    obtain ⟨y, -, rfl⟩ := hmem
    by_cases hy : reservedChar y
    · rw [if_pos hy]; decide
    · rw [if_neg hy]; simpa using hy

theorem generateTitle_no_slash (remoteText : String) (maxTitleLength : Nat) :
    ∀ c ∈ (generateTitle remoteText maxTitleLength).data, c ≠ '/' := by
  intro c hc heq
  subst heq
  have hres : reservedChar '/' = true := by decide
  have hsan : '/' ∈ (sanitizeTitle remoteText).data := by
    unfold generateTitle at hc
    by_cases h : (sanitizeTitle remoteText).length > maxTitleLength
    · rw [if_pos h] at hc
      have := mem_trimL hc
      exact (List.take_sublist _ _).subset this
    · rw [if_neg h] at hc
      exact hc
  rw [sanitizeTitle_no_reserved '/' hsan] at hres
  exact Bool.noConfusion hres

theorem dropWhile_append_of_all {p : Char → Bool} :
    ∀ (a b : List Char), (∀ c ∈ a, p c = true) →
      (a ++ b).dropWhile p = b.dropWhile p := by
  intro a
  induction a with
  | nil => intro b _; rfl
  | cons x a ih =>
    intro b hall
    rw [List.cons_append, List.dropWhile_cons, if_pos (hall x (List.mem_cons_self _ _))]
    exact ih b (fun c hc => hall c (List.mem_cons_of_mem _ hc))

theorem dirOf_of_parent {p t : String} (ht : '/' ∉ t.data) :
    dirOf (p ++ "/" ++ t ++ ".md") = some p := by
  have hdata : (p ++ "/" ++ t ++ ".md").data =
      p.data ++ '/' :: (t.data ++ ['.', 'm', 'd']) := by
    rw [String.data_append, String.data_append, String.data_append]
    show p.data ++ ['/'] ++ t.data ++ ['.', 'm', 'd'] = _
    simp
  unfold dirOf
  rw [hdata, if_pos (by simp)]
  have hrev : (p.data ++ '/' :: (t.data ++ ['.', 'm', 'd'])).reverse =
      (t.data ++ ['.', 'm', 'd']).reverse ++ '/' :: p.data.reverse := by
    simp
  have hall : ∀ c ∈ (t.data ++ ['.', 'm', 'd']).reverse,
      (fun c => decide (c ≠ '/')) c = true := by
    intro c hcm
    rw [List.mem_reverse] at hcm
    rcases List.mem_append.mp hcm with hcm | hcm
    · have hne : c ≠ '/' := fun h => ht (h ▸ hcm)
      simpa using hne
    · have : c = '.' ∨ c = 'm' ∨ c = 'd' := by simpa using hcm
      rcases this with rfl | rfl | rfl <;> decide
  rw [hrev, dropWhile_append_of_all _ _ hall, List.dropWhile_cons,
    if_neg (by simp), List.drop_one, List.tail_cons, List.reverse_reverse]

theorem dirOf_of_root {t : String} (ht : '/' ∉ t.data) :
    dirOf (t ++ ".md") = none := by
  unfold dirOf
  rw [if_neg]
  intro hmem
  rw [String.data_append] at hmem
  rcases List.mem_append.mp hmem with h | h
  · exact ht h
  · simp at h

/-- C8: applying a new title keeps the document within its current container
— the destination path is built inside the file's parent folder, and
generated titles contain no `/` — and the rename never overwrites an existing
different document: if the destination path is already held by a different
document, the store is left unchanged and no rename happens (the rejection is
the host rename collaborator, modelled from the spec). -/
theorem generateTitleApply_safe (vault : List (String × String)) (file : FileRef)
    (remoteText : String) (maxTitleLength : Nat) :
    (∀ c ∈ (generateTitle remoteText maxTitleLength).data, c ≠ '/') ∧
    (∀ p, file.parentPath = some p →
      dirOf (newTitlePath file (generateTitle remoteText maxTitleLength)) = some p) ∧
    (file.parentPath = none →
      dirOf (newTitlePath file (generateTitle remoteText maxTitleLength)) = none) ∧
    (∀ newTitle : String,
      newTitlePath file newTitle ≠ file.path →
      (∃ e ∈ vault, e.1 = newTitlePath file newTitle) →
      (generateTitleApply vault file newTitle).vault = vault ∧
      (generateTitleApply vault file newTitle).renamed = false) := by
  have hslash : '/' ∉ (generateTitle remoteText maxTitleLength).data := by
    intro h
    exact generateTitle_no_slash remoteText maxTitleLength '/' h rfl
  refine ⟨generateTitle_no_slash remoteText maxTitleLength, ?_, ?_, ?_⟩
  · intro p hp
    unfold newTitlePath
    rw [hp]
    exact dirOf_of_parent hslash
  · intro hp
    unfold newTitlePath
    rw [hp]
    exact dirOf_of_root hslash
  · intro newTitle hne hocc
    unfold generateTitleApply
    by_cases hb : file.basename = newTitle
    · rw [if_pos hb]
      exact ⟨rfl, rfl⟩
    · rw [if_neg hb]
      have hrn : renameFile vault file.path (newTitlePath file newTitle) = none := by
        unfold renameFile
        rw [if_pos]
        refine ⟨hne, ?_⟩
        rw [List.any_eq_true]
        obtain ⟨e, he, heq⟩ := hocc
        exact ⟨e, he, by simpa using heq⟩
      rw [hrn]
      exact ⟨rfl, rfl⟩

/-- Witness for C8: remote text `"New/Title:1"` sanitizes to `"New Title 1"`;
destination `folder/New Title 1.md` stays inside `folder`, and renaming onto
an occupied destination leaves the two-file store unchanged. -/
theorem generateTitleApply_safe_witness :
    dirOf (newTitlePath ⟨"folder/Old.md", some "folder", "Old"⟩
        (generateTitle "New/Title:1" 40)) = some "folder" ∧
    (generateTitleApply
        [("folder/Old.md", "x"), ("folder/New Title.md", "y")]
        ⟨"folder/Old.md", some "folder", "Old"⟩ "New Title").vault =
      [("folder/Old.md", "x"), ("folder/New Title.md", "y")] ∧
    (generateTitleApply
        [("folder/Old.md", "x"), ("folder/New Title.md", "y")]
        ⟨"folder/Old.md", some "folder", "Old"⟩ "New Title").renamed = false := by
  refine ⟨?_, ?_, ?_⟩
  · exact (generateTitleApply_safe [] ⟨"folder/Old.md", some "folder", "Old"⟩
      "New/Title:1" 40).2.1 "folder" rfl
  · exact ((generateTitleApply_safe
      [("folder/Old.md", "x"), ("folder/New Title.md", "y")]
      ⟨"folder/Old.md", some "folder", "Old"⟩ "" 0).2.2.2 "New Title"
      (by decide) ⟨("folder/New Title.md", "y"), by decide, rfl⟩).1
  · exact ((generateTitleApply_safe
      [("folder/Old.md", "x"), ("folder/New Title.md", "y")]
      ⟨"folder/Old.md", some "folder", "Old"⟩ "" 0).2.2.2 "New Title"
      (by decide) ⟨("folder/New Title.md", "y"), by decide, rfl⟩).2

end TitleForge
